import Mathlib

/-!
Shallow embedding of the Eggsembly pipeline (src/lexer.rs, src/parser.rs,
src/compiler.rs).  Source text is modelled as `List Char` (the source indexes
byte positions, identical to char positions for the ASCII inputs considered
here).  Rust functions that can terminate the process via `point_error`
return a `fatal` result carrying the diagnostic, functions that can panic
(`unwrap`, `todo!`, `unreachable!`) return `none` / `panic`, and the string
lexer's loop (which can fail to make progress) is given an explicit fuel,
with `hang` modelling non-termination.
-/

namespace Egg

/-- Tokens (`Token` in src/lexer.rs).  `Float` carries the literal slice;
the number the source's token stores is the `f64` parse of that slice,
modelled by `f64_of_lit` below. -/
inductive Token where
  | Int : Int → Token
  | Float : List Char → Token
  | Identifier : List Char → Token
  | String : List Char → Token
  | Plus : Token
  | Sub : Token
  | Mul : Token
  | Div : Token
  | LParen : Token
  | RParen : Token
  | LBracket : Token
  | RBracket : Token
  | LBrace : Token
  | RBrace : Token
  | Comma : Token
  | Eq : Token
  | Semi : Token
  | Let : Token
  | Hatch : Token
  | Build : Token
  | Push : Token
  | Top : Token
  | Axe : Token
  | Chicken : Token
  | Add : Token
  | Fox : Token
  | Rooster : Token
  | Cmp : Token
  | Pick : Token
  | Peck : Token
  | Fr : Token
  | Bbq : Token
deriving DecidableEq, Repr

/-- The static `KEYWORDS` table of src/lexer.rs. -/
def keywords : List (List Char × Token) :=
  [("let".toList, Token.Let), ("build".toList, Token.Build),
   ("hatch".toList, Token.Hatch), ("push".toList, Token.Push),
   ("TOP".toList, Token.Top), ("axe".toList, Token.Axe),
   ("chicken".toList, Token.Chicken), ("add".toList, Token.Add),
   ("fox".toList, Token.Fox), ("rooster".toList, Token.Rooster),
   ("compare".toList, Token.Cmp), ("pick".toList, Token.Pick),
   ("peck".toList, Token.Peck), ("fr".toList, Token.Fr),
   ("bbq".toList, Token.Bbq)]

/-- Models `KEYWORDS.get` (exact, case-sensitive match). -/
def keywordLookup (s : List Char) : Option Token :=
  (keywords.find? (fun kv => kv.1 == s)).map (fun kv => kv.2)

/-- Lexer cursor state (the `input`, `chars`, `pos`, `line`, `col` fields of
`Lexer` in src/lexer.rs).  `rest` is the unconsumed suffix of `input`; the
source's `cur_char` is `rest.head?`.  The one-token lookahead is kept
separately in `PLexer`. -/
structure Lexer where
  input : List Char
  rest : List Char
  pos : Nat
  line : Nat
  col : Nat
deriving DecidableEq, Repr

/-- Models `self.cur_char`. -/
def Lexer.cur_char (l : Lexer) : Option Char := l.rest.head?

/-- The cursor part of `Lexer::new`: line 1, column 0, position 0, current
character = first character of the input. -/
def initLexer (input : List Char) : Lexer := ⟨input, input, 0, 1, 0⟩

/-- Models `Lexer::step_chr`: advance `pos` and `col`, pull the next character, and
on seeing a newline as the *new* current character bump `line` and reset
`col` to 0. -/
def step_chr (l : Lexer) : Lexer :=
  let rest := l.rest.tail
  match rest.head? with
  | some c =>
    if c = '\n' then ⟨l.input, rest, l.pos + 1, l.line + 1, 0⟩
    else ⟨l.input, rest, l.pos + 1, l.line, l.col + 1⟩
  | none => ⟨l.input, rest, l.pos + 1, l.line, l.col + 1⟩

/-- Loop body of `Lexer::consume_while`, written with the unconsumed suffix
as the structural recursion argument; the per-character state update is the
one of `step_chr`. -/
def consume_while_aux (p : Char → Bool) :
    List Char → List Char → Nat → Nat → Nat → Lexer
  | [], input, pos, line, col => ⟨input, [], pos, line, col⟩
  | c :: cs, input, pos, line, col =>
    if p c then
      match cs.head? with
      | some c2 =>
        if c2 = '\n' then consume_while_aux p cs input (pos + 1) (line + 1) 0
        else consume_while_aux p cs input (pos + 1) line (col + 1)
      | none => consume_while_aux p cs input (pos + 1) line (col + 1)
    else ⟨input, c :: cs, pos, line, col⟩

/-- Models `Lexer::consume_while`. -/
def consume_while (p : Char → Bool) (l : Lexer) : Lexer :=
  consume_while_aux p l.rest l.input l.pos l.line l.col

/-- Models `Lexer::consume_char`: consume the current character iff it equals `c`,
returning whether it did. -/
def consume_char (c : Char) (l : Lexer) : Bool × Lexer :=
  match l.rest.head? with
  | some ch => if ch = c then (true, step_chr l) else (false, l)
  | none => (false, l)

/-- Models `Lexer::skip_whitespace`. -/
def skip_whitespace (l : Lexer) : Lexer :=
  consume_while (fun c => c.isWhitespace) l

/-- The slice `&input[a..b]` (char positions; the claims use ASCII input). -/
def slice (input : List Char) (a b : Nat) : List Char :=
  (input.drop a).take (b - a)

/-- The identifier-continuation class `'a'..='z' | 'A'..='Z' | '0'..='9' | '_'`
of `Lexer::lex_ident`. -/
def identChar (c : Char) : Bool :=
  c.isAlpha || c.isDigit || c == '_'

/-- Models `Lexer::lex_ident`: maximal identifier run, then keyword lookup. -/
def lex_ident (l : Lexer) : Token × Lexer :=
  let l1 := consume_while identChar l
  let ret := slice l.input l.pos l1.pos
  match keywordLookup ret with
  | some tok => (tok, l1)
  | none => (Token.Identifier ret, l1)

/-- Decimal value of a digit string. -/
def natOfDigits (s : List Char) : Nat :=
  s.foldl (fun acc c => acc * 10 + (c.toNat - '0'.toNat)) 0

/-- The constant `i64::MAX`. -/
def i64Max : Nat := 9223372036854775807

/-- Rust `str::parse::<i64>()` on the all-digit slices produced by
`lex_number`; `none` models the `Err` that the source's `unwrap()` turns
into a panic (the value exceeds `i64::MAX`). -/
def parse_i64 (s : List Char) : Option Int :=
  if natOfDigits s ≤ i64Max then some (Int.ofNat (natOfDigits s)) else none

/-- Models `Lexer::lex_number`: maximal digit run, optional `.` plus a further
digit run making a float; `none` models the panic of `parse().unwrap()`
on integer overflow (the `f64` parse of a float literal never errors). -/
def lex_number (l : Lexer) : Option (Token × Lexer) :=
  let l1 := consume_while (fun c => c.isDigit) l
  match consume_char '.' l1 with
  | (true, l2) =>
    let l3 := consume_while (fun c => c.isDigit) l2
    some (Token.Float (slice l.input l.pos l3.pos), l3)
  | (false, _) =>
    (parse_i64 (slice l.input l.pos l1.pos)).map (fun n => (Token.Int n, l1))

/-- The kinds of fatal diagnostics the lexer and parser print before calling
`point_error` / exiting. -/
inductive ErrKind where
  | expected : Token → Option Token → ErrKind
  | invalidChar : Char → ErrKind
  | invalidEscape : Char → ErrKind
  | unterminatedString : ErrKind
  | unexpectedToken : ErrKind
  | expectedExpr : ErrKind
deriving DecidableEq, Repr

/-- A fatal diagnostic: its kind plus the lexer cursor state at the moment
`point_error` runs (the state its rendering reads). -/
structure Diag where
  kind : ErrKind
  st : Lexer
deriving DecidableEq, Repr

/-- Result of `Lexer::lex_string`. -/
inductive StrRes where
  | ok : List Char → Lexer → StrRes
  | fatal : Diag → StrRes
  | hang : StrRes
deriving DecidableEq, Repr

/-- The `loop` of `Lexer::lex_string`: consume up to a backslash or quote,
append the consumed slice, then dispatch.  The loop body makes no progress
when the input is exhausted (neither `consume_char` fires), so it is given
fuel; `hang` models exhausting it. -/
def lex_string_loop : Nat → List Char → Lexer → StrRes
  | 0, _, _ => StrRes.hang
  | fuel + 1, acc, l =>
    let l1 := consume_while (fun c => !(c == '\\' || c == '"')) l
    let acc1 := acc ++ slice l.input l.pos l1.pos
    match consume_char '\\' l1 with
    | (true, l2) =>
      match l2.cur_char with
      | some c =>
        if c = 'n' then lex_string_loop fuel (acc1 ++ ['\n']) (step_chr l2)
        else if c = 't' then lex_string_loop fuel (acc1 ++ ['\t']) (step_chr l2)
        else if c = '"' then lex_string_loop fuel (acc1 ++ ['"']) (step_chr l2)
        else StrRes.fatal ⟨ErrKind.invalidEscape c, l2⟩
      | none => StrRes.fatal ⟨ErrKind.unterminatedString, l2⟩
    | (false, _) =>
      match consume_char '"' l1 with
      | (true, l2) => StrRes.ok acc1 l2
      | (false, _) => lex_string_loop fuel acc1 l1

/-- Models `Lexer::lex_string`: consume the opening quote, then run the loop. -/
def lex_string (fuel : Nat) (l : Lexer) : StrRes :=
  lex_string_loop fuel [] (consume_char '"' l).2

/-- Result of `Lexer::lex_token`: a token plus the advanced cursor, `eof`
(the source's `None`, with the state after `skip_whitespace`), a fatal
diagnostic, a panic (integer overflow), or divergence of the string loop. -/
inductive TokRes where
  | tok : Token → Lexer → TokRes
  | eof : Lexer → TokRes
  | fatal : Diag → TokRes
  | panic : TokRes
  | hang : TokRes
deriving DecidableEq, Repr

/-- Models `Lexer::lex_token`: skip whitespace, then dispatch on the current
character exactly as the source's `match` does. -/
def lex_token (sfuel : Nat) (l0 : Lexer) : TokRes :=
  let l := skip_whitespace l0
  match l.cur_char with
  | some '+' => TokRes.tok Token.Plus (step_chr l)
  | some '-' => TokRes.tok Token.Sub (step_chr l)
  | some '*' => TokRes.tok Token.Mul (step_chr l)
  | some '/' => TokRes.tok Token.Div (step_chr l)
  | some '(' => TokRes.tok Token.LParen (step_chr l)
  | some ')' => TokRes.tok Token.RParen (step_chr l)
  | some '[' => TokRes.tok Token.LBracket (step_chr l)
  | some ']' => TokRes.tok Token.RBracket (step_chr l)
  | some '{' => TokRes.tok Token.LBrace (step_chr l)
  | some '}' => TokRes.tok Token.RBrace (step_chr l)
  | some ',' => TokRes.tok Token.Comma (step_chr l)
  | some '=' => TokRes.tok Token.Eq (step_chr l)
  | some ';' => TokRes.tok Token.Semi (step_chr l)
  | some '"' =>
    match lex_string sfuel l with
    | StrRes.ok s l1 => TokRes.tok (Token.String s) l1
    | StrRes.fatal d => TokRes.fatal d
    | StrRes.hang => TokRes.hang
  | some c =>
    if c.isDigit then
      match lex_number l with
      | some (t, l1) => TokRes.tok t l1
      | none => TokRes.panic
    else if c.isAlpha || c == '_' then
      let tl := lex_ident l
      TokRes.tok tl.1 tl.2
    else TokRes.fatal ⟨ErrKind.invalidChar c, l⟩
  | none => TokRes.eof l

/-- Lexer with its one-token lookahead (the `lookahead` field). -/
structure PLexer where
  st : Lexer
  lookahead : Option Token
deriving DecidableEq, Repr

/-- Result of an operation that refills the lookahead. -/
inductive StepRes where
  | ok : PLexer → StepRes
  | fatal : Diag → StepRes
  | panic : StepRes
  | hang : StepRes
deriving DecidableEq, Repr

/-- Models `Lexer::step_token` (also the `self.lookahead = self.lex_token()`
refills in `Lexer::new` and `Lexer::match_token`). -/
def step_token (sfuel : Nat) (F : PLexer) : StepRes :=
  match lex_token sfuel F.st with
  | TokRes.tok t l => StepRes.ok ⟨l, some t⟩
  | TokRes.eof l => StepRes.ok ⟨l, none⟩
  | TokRes.fatal d => StepRes.fatal d
  | TokRes.panic => StepRes.panic
  | TokRes.hang => StepRes.hang

/-- Models `Lexer::new`: build the cursor, then eagerly lex the first lookahead. -/
def mkLexer (sfuel : Nat) (input : List Char) : StepRes :=
  step_token sfuel ⟨initLexer input, none⟩

/-- Models `Lexer::match_token`: advance past the lookahead iff it equals
`expected`, else a fatal "Expected ..." diagnostic at the current cursor. -/
def match_token (sfuel : Nat) (expected : Token) (F : PLexer) : StepRes :=
  if F.lookahead = some expected then step_token sfuel F
  else StepRes.fatal ⟨ErrKind.expected expected F.lookahead, F.st⟩

/-- Checked `usize` subtraction: `none` models the underflow panic of debug
builds (release builds wrap to a value near `2^64`, equally unusable as a
space count or index). -/
def checked_sub (a b : Nat) : Option Nat :=
  if b ≤ a then some (a - b) else none

/-- The Rust slice `&input[a..=b]`, which panics unless
`a ≤ b + 1 ∧ b + 1 ≤ input.len()`. -/
def slice_incl (input : List Char) (a b : Nat) : Option (List Char) :=
  if a ≤ b + 1 ∧ b + 1 ≤ input.length then some (slice input a (b + 1))
  else none

/-- Models `str::find('\n')` on the suffix from `pos`. -/
def findNl (s : List Char) : Option Nat := s.findIdx? (fun c => c == '\n')

/-- The computation `Lexer::point_error` performs to render a diagnostic:
the source line around the error and the number of spaces printed before
the caret.  `none` models a `usize` underflow or slice-bound panic in that
computation. -/
def point_error_render (l : Lexer) : Option (List Char × Nat) :=
  (match findNl (l.input.drop l.pos) with
   | some n => checked_sub (l.pos + n) 1
   | none => checked_sub l.input.length 1).bind fun line_end =>
  (checked_sub l.pos l.col).bind fun a =>
  (slice_incl l.input (a + 1) line_end).bind fun lineTxt =>
  (checked_sub l.col 2).map fun nspace => (lineTxt, nspace)

/-- Token stream of an input, as collected by the `LexerIterator` in
src/main.rs: repeated `lex_token` until `None`; `none` here means a fatal
error, a panic, divergence, or exhaustion of the count fuel. -/
def tokenList (sfuel : Nat) : Nat → Lexer → Option (List Token)
  | 0, _ => none
  | fuel + 1, l =>
    match lex_token sfuel l with
    | TokRes.tok t l1 => (tokenList sfuel fuel l1).map (fun ts => t :: ts)
    | TokRes.eof _ => some []
    | _ => none

/-- Expressions (`Expr` in src/parser.rs).  `BinOp`/`UnOp` carry a `Token`
operator exactly as the source does. -/
inductive Expr where
  | Int : Int → Expr
  | Float : List Char → Expr
  | BinOp : Token → Expr → Expr → Expr
  | UnOp : Token → Expr → Expr
  | FunctionCall : List Char → List Expr → Expr
  | Variable : List Char → Expr
deriving Repr

/-- Statements (`Stmt` in src/parser.rs). -/
inductive Stmt where
  | StmtSeq : List Stmt → Stmt
  | Axe : Stmt
  | Chicken : Stmt
  | Add : Stmt
  | Fox : Stmt
  | Rooster : Stmt
  | Cmp : Stmt
  | Pick : Stmt
  | Peck : Stmt
  | Fr : Stmt
  | Bbq : Stmt
  | Push : Expr → Stmt
  | Ass : List Char → Expr → Stmt
deriving Repr

/-- Result of a parser production: a value plus the lexer (with lookahead)
after it, a fatal diagnostic, a panic, or lexer divergence / parser fuel
exhaustion. -/
inductive PRes (α : Type) where
  | ok : α → PLexer → PRes α
  | fatal : Diag → PRes α
  | panic : PRes α
  | hang : PRes α
deriving Repr

/-- Sequencing of a lookahead refill (`step_token`) with a pure result, as
in the parser's `self.lexer.step_token(); Some(...)` statement arms. -/
def stepThen {α : Type} (r : StepRes) (v : α) : PRes α :=
  match r with
  | StepRes.ok F => PRes.ok v F
  | StepRes.fatal d => PRes.fatal d
  | StepRes.panic => PRes.panic
  | StepRes.hang => PRes.hang

mutual

/-- Models `Parser::parse_stmt_seq`'s `loop`, with the accumulated statements
(`stmts`) explicit: parse a statement; on `None` break with the sequence,
else require a `;` (`match_token(Token::Semi)`) and continue. -/
def parse_stmt_seq (sfuel : Nat) : Nat → List Stmt → PLexer → PRes Stmt
  | 0, _, _ => PRes.hang
  | fuel + 1, acc, F =>
    match parse_stmt sfuel fuel F with
    | PRes.ok none F1 => PRes.ok (Stmt.StmtSeq acc) F1
    | PRes.ok (some s) F1 =>
      match match_token sfuel Token.Semi F1 with
      | StepRes.ok F2 => parse_stmt_seq sfuel fuel (acc ++ [s]) F2
      | StepRes.fatal d => PRes.fatal d
      | StepRes.panic => PRes.panic
      | StepRes.hang => PRes.hang
    | PRes.fatal d => PRes.fatal d
    | PRes.panic => PRes.panic
    | PRes.hang => PRes.hang

/-- Models `Parser::parse_stmt`: dispatch on the lookahead; `ok none` is the
source's `None` (end of statement sequence), any unexpected token is a
fatal "Unexpected token" diagnostic. -/
def parse_stmt (sfuel : Nat) : Nat → PLexer → PRes (Option Stmt)
  | 0, _ => PRes.hang
  | fuel + 1, F =>
    match F.lookahead with
    | some Token.Axe => stepThen (step_token sfuel F) (some Stmt.Axe)
    | some Token.Chicken => stepThen (step_token sfuel F) (some Stmt.Chicken)
    | some Token.Add => stepThen (step_token sfuel F) (some Stmt.Add)
    | some Token.Fox => stepThen (step_token sfuel F) (some Stmt.Fox)
    | some Token.Rooster => stepThen (step_token sfuel F) (some Stmt.Rooster)
    | some Token.Cmp => stepThen (step_token sfuel F) (some Stmt.Cmp)
    | some Token.Pick => stepThen (step_token sfuel F) (some Stmt.Pick)
    | some Token.Peck => stepThen (step_token sfuel F) (some Stmt.Peck)
    | some Token.Fr => stepThen (step_token sfuel F) (some Stmt.Fr)
    | some Token.Bbq => stepThen (step_token sfuel F) (some Stmt.Bbq)
    | some Token.Push =>
      match step_token sfuel F with
      | StepRes.ok F1 =>
        match parse_expr sfuel fuel F1 with
        | PRes.ok e F2 => PRes.ok (some (Stmt.Push e)) F2
        | PRes.fatal d => PRes.fatal d
        | PRes.panic => PRes.panic
        | PRes.hang => PRes.hang
      | StepRes.fatal d => PRes.fatal d
      | StepRes.panic => PRes.panic
      | StepRes.hang => PRes.hang
    | none => PRes.ok none F
    | some _ => PRes.fatal ⟨ErrKind.unexpectedToken, F.st⟩

/-- Models `Parser::parse_expr`: a term followed by the `+`/`-` tail. -/
def parse_expr (sfuel : Nat) : Nat → PLexer → PRes Expr
  | 0, _ => PRes.hang
  | fuel + 1, F =>
    match parse_term sfuel fuel F with
    | PRes.ok left F1 => parse_expr_tail sfuel fuel left F1
    | PRes.fatal d => PRes.fatal d
    | PRes.panic => PRes.panic
    | PRes.hang => PRes.hang

/-- Models `Parser::parse_expr_tail`: left-accumulating `+`/`-` chain. -/
def parse_expr_tail (sfuel : Nat) : Nat → Expr → PLexer → PRes Expr
  | 0, _, _ => PRes.hang
  | fuel + 1, left, F =>
    match F.lookahead with
    | some Token.Plus =>
      match match_token sfuel Token.Plus F with
      | StepRes.ok F1 =>
        match parse_term sfuel fuel F1 with
        | PRes.ok right F2 =>
          parse_expr_tail sfuel fuel (Expr.BinOp Token.Plus left right) F2
        | PRes.fatal d => PRes.fatal d
        | PRes.panic => PRes.panic
        | PRes.hang => PRes.hang
      | StepRes.fatal d => PRes.fatal d
      | StepRes.panic => PRes.panic
      | StepRes.hang => PRes.hang
    | some Token.Sub =>
      match match_token sfuel Token.Sub F with
      | StepRes.ok F1 =>
        match parse_term sfuel fuel F1 with
        | PRes.ok right F2 =>
          parse_expr_tail sfuel fuel (Expr.BinOp Token.Sub left right) F2
        | PRes.fatal d => PRes.fatal d
        | PRes.panic => PRes.panic
        | PRes.hang => PRes.hang
      | StepRes.fatal d => PRes.fatal d
      | StepRes.panic => PRes.panic
      | StepRes.hang => PRes.hang
    | _ => PRes.ok left F

/-- Models `Parser::parse_term`: a factor followed by the `*`/`/` tail. -/
def parse_term (sfuel : Nat) : Nat → PLexer → PRes Expr
  | 0, _ => PRes.hang
  | fuel + 1, F =>
    match parse_factor sfuel fuel F with
    | PRes.ok left F1 => parse_term_tail sfuel fuel left F1
    | PRes.fatal d => PRes.fatal d
    | PRes.panic => PRes.panic
    | PRes.hang => PRes.hang

/-- Models `Parser::parse_term_tail`: left-accumulating `*`/`/` chain. -/
def parse_term_tail (sfuel : Nat) : Nat → Expr → PLexer → PRes Expr
  | 0, _, _ => PRes.hang
  | fuel + 1, left, F =>
    match F.lookahead with
    | some Token.Mul =>
      match match_token sfuel Token.Mul F with
      | StepRes.ok F1 =>
        match parse_factor sfuel fuel F1 with
        | PRes.ok right F2 =>
          parse_term_tail sfuel fuel (Expr.BinOp Token.Mul left right) F2
        | PRes.fatal d => PRes.fatal d
        | PRes.panic => PRes.panic
        | PRes.hang => PRes.hang
      | StepRes.fatal d => PRes.fatal d
      | StepRes.panic => PRes.panic
      | StepRes.hang => PRes.hang
    | some Token.Div =>
      match match_token sfuel Token.Div F with
      | StepRes.ok F1 =>
        match parse_factor sfuel fuel F1 with
        | PRes.ok right F2 =>
          parse_term_tail sfuel fuel (Expr.BinOp Token.Div left right) F2
        | PRes.fatal d => PRes.fatal d
        | PRes.panic => PRes.panic
        | PRes.hang => PRes.hang
      | StepRes.fatal d => PRes.fatal d
      | StepRes.panic => PRes.panic
      | StepRes.hang => PRes.hang
    | _ => PRes.ok left F

/-- Models `Parser::parse_factor`: integer and float literals, unary `-`/`+`
(stored as `UnOp` with the *punctuation* token), parenthesized expression,
and identifier resolved to call or variable; anything else is the fatal
"Expected an expression" diagnostic. -/
def parse_factor (sfuel : Nat) : Nat → PLexer → PRes Expr
  | 0, _ => PRes.hang
  | fuel + 1, F =>
    match F.lookahead with
    | some (Token.Int n) => stepThen (step_token sfuel F) (Expr.Int n)
    | some Token.Sub =>
      match step_token sfuel F with
      | StepRes.ok F1 =>
        match parse_factor sfuel fuel F1 with
        | PRes.ok e F2 => PRes.ok (Expr.UnOp Token.Sub e) F2
        | PRes.fatal d => PRes.fatal d
        | PRes.panic => PRes.panic
        | PRes.hang => PRes.hang
      | StepRes.fatal d => PRes.fatal d
      | StepRes.panic => PRes.panic
      | StepRes.hang => PRes.hang
    | some Token.Plus =>
      match step_token sfuel F with
      | StepRes.ok F1 =>
        match parse_factor sfuel fuel F1 with
        | PRes.ok e F2 => PRes.ok (Expr.UnOp Token.Plus e) F2
        | PRes.fatal d => PRes.fatal d
        | PRes.panic => PRes.panic
        | PRes.hang => PRes.hang
      | StepRes.fatal d => PRes.fatal d
      | StepRes.panic => PRes.panic
      | StepRes.hang => PRes.hang
    | some (Token.Float f) => stepThen (step_token sfuel F) (Expr.Float f)
    | some Token.LParen =>
      match step_token sfuel F with
      | StepRes.ok F1 =>
        match parse_expr sfuel fuel F1 with
        | PRes.ok e F2 =>
          match match_token sfuel Token.RParen F2 with
          | StepRes.ok F3 => PRes.ok e F3
          | StepRes.fatal d => PRes.fatal d
          | StepRes.panic => PRes.panic
          | StepRes.hang => PRes.hang
        | PRes.fatal d => PRes.fatal d
        | PRes.panic => PRes.panic
        | PRes.hang => PRes.hang
      | StepRes.fatal d => PRes.fatal d
      | StepRes.panic => PRes.panic
      | StepRes.hang => PRes.hang
    | some (Token.Identifier name) =>
      match step_token sfuel F with
      | StepRes.ok F1 =>
        match F1.lookahead with
        | some Token.LParen =>
          match step_token sfuel F1 with
          | StepRes.ok F2 =>
            match parse_argument_list sfuel fuel F2 with
            | PRes.ok args F3 =>
              match match_token sfuel Token.RParen F3 with
              | StepRes.ok F4 => PRes.ok (Expr.FunctionCall name args) F4
              | StepRes.fatal d => PRes.fatal d
              | StepRes.panic => PRes.panic
              | StepRes.hang => PRes.hang
            | PRes.fatal d => PRes.fatal d
            | PRes.panic => PRes.panic
            | PRes.hang => PRes.hang
          | StepRes.fatal d => PRes.fatal d
          | StepRes.panic => PRes.panic
          | StepRes.hang => PRes.hang
        | _ => PRes.ok (Expr.Variable name) F1
      | StepRes.fatal d => PRes.fatal d
      | StepRes.panic => PRes.panic
      | StepRes.hang => PRes.hang
    | _ => PRes.fatal ⟨ErrKind.expectedExpr, F.st⟩

/-- Models `Parser::parse_argument_list`: empty iff the lookahead is `)`,
otherwise a first expression then the comma loop. -/
def parse_argument_list (sfuel : Nat) : Nat → PLexer → PRes (List Expr)
  | 0, _ => PRes.hang
  | fuel + 1, F =>
    if F.lookahead = some Token.RParen then PRes.ok [] F
    else
      match parse_expr sfuel fuel F with
      | PRes.ok e F1 => parse_arg_loop sfuel fuel [e] F1
      | PRes.fatal d => PRes.fatal d
      | PRes.panic => PRes.panic
      | PRes.hang => PRes.hang

/-- The `while let Some(Token::Comma)` loop of `parse_argument_list`. -/
def parse_arg_loop (sfuel : Nat) : Nat → List Expr → PLexer → PRes (List Expr)
  | 0, _, _ => PRes.hang
  | fuel + 1, acc, F =>
    match F.lookahead with
    | some Token.Comma =>
      match step_token sfuel F with
      | StepRes.ok F1 =>
        match parse_expr sfuel fuel F1 with
        | PRes.ok e F2 => parse_arg_loop sfuel fuel (acc ++ [e]) F2
        | PRes.fatal d => PRes.fatal d
        | PRes.panic => PRes.panic
        | PRes.hang => PRes.hang
      | StepRes.fatal d => PRes.fatal d
      | StepRes.panic => PRes.panic
      | StepRes.hang => PRes.hang
    | _ => PRes.ok acc F

end

/-- Models `Parser::parse` applied to a fresh `Lexer::new` on `input`, as in
src/main.rs. -/
def parseSource (sfuel pfuel : Nat) (input : List Char) : PRes Stmt :=
  match mkLexer sfuel input with
  | StepRes.ok F => parse_stmt_seq sfuel pfuel [] F
  | StepRes.fatal d => PRes.fatal d
  | StepRes.panic => PRes.panic
  | StepRes.hang => PRes.hang

/-- Instructions (`Code` in src/compiler.rs).  Note there is no `Cmp`
variant and no dedicated subtract/multiply/negate instructions. -/
inductive Code where
  | Axe : Code
  | Chicken : Code
  | Add : Code
  | Fox : Code
  | Rooster : Code
  | Pick : Code
  | Peck : Code
  | Fr : Code
  | Bbq : Code
  | Push : Int → Code
  | PushFloat : List Char → Code
  | PushVariable : List Char → Code
  | CallFunc : List Char → Code
  | Div : Code
deriving DecidableEq, Repr

mutual

/-- Structural size used only to justify termination of `compile_expr`
(whose unary-minus case recurses through a rewritten, non-subterm
expression). -/
def exprSize : Expr → Nat
  | Expr.Int _ => 1
  | Expr.Float _ => 1
  | Expr.Variable _ => 1
  | Expr.BinOp _ l r => exprSize l + exprSize r + 1
  | Expr.UnOp _ e => exprSize e + 3
  | Expr.FunctionCall _ args => argsSize args + 1

def argsSize : List Expr → Nat
  | [] => 0
  | e :: es => exprSize e + argsSize es + 1

end

mutual

/-- Models `Compiler::compile_expr`, with the emitted instructions returned
(the source appends them to `self.code`); `none` models a panic.  The
unary cases mirror the source's bug: unary minus (`Token::Sub`) is
rewritten to `0 - operand`, but the identity case matches `Token::Add`
(the `add` keyword token) while the parser stores `Token::Plus`, so a
parsed unary plus falls into the source's `unreachable!()`. -/
def compile_expr : Expr → Option (List Code)
  | Expr.Int n => some [Code.Push n]
  | Expr.Float f => some [Code.PushFloat f]
  | Expr.UnOp op e =>
    match op with
    | Token.Sub => compile_expr (Expr.BinOp Token.Sub (Expr.Int 0) e)
    | Token.Add => compile_expr e
    | _ => none
  | Expr.BinOp op l r =>
    (compile_expr l).bind fun cl =>
    (compile_expr r).bind fun cr =>
    match op with
    | Token.Plus => some (cl ++ cr ++ [Code.Add])
    | Token.Sub => some (cl ++ cr ++ [Code.Fox])
    | Token.Mul => some (cl ++ cr ++ [Code.Rooster])
    | Token.Div => some (cl ++ cr ++ [Code.Div])
    | _ => none
  | Expr.FunctionCall name args =>
    (compile_args args).map (fun c => c ++ [Code.CallFunc name])
  | Expr.Variable name => some [Code.PushVariable name]
termination_by e => exprSize e
decreasing_by all_goals (simp [exprSize, argsSize]; try omega)

/-- The argument loop of the `Expr::FunctionCall` case. -/
def compile_args : List Expr → Option (List Code)
  | [] => some []
  | e :: es =>
    (compile_expr e).bind fun c =>
    (compile_args es).map (fun cs => c ++ cs)
termination_by es => argsSize es
decreasing_by all_goals (simp [exprSize, argsSize]; try omega)

end

mutual

/-- Models `Compiler::compile_stmt`; `none` models the `todo!()` of the final
wildcard arm, which catches `Stmt::Ass` *and* `Stmt::Cmp` (the source's
match has no `Cmp` arm and `Code` has no `Cmp` instruction). -/
def compile_stmt : Stmt → Option (List Code)
  | Stmt.StmtSeq seq => compile_seq seq
  | Stmt.Axe => some [Code.Axe]
  | Stmt.Chicken => some [Code.Chicken]
  | Stmt.Add => some [Code.Add]
  | Stmt.Fox => some [Code.Fox]
  | Stmt.Rooster => some [Code.Rooster]
  | Stmt.Pick => some [Code.Pick]
  | Stmt.Peck => some [Code.Peck]
  | Stmt.Fr => some [Code.Fr]
  | Stmt.Bbq => some [Code.Bbq]
  | Stmt.Push e => compile_expr e
  | _ => none

/-- The `Stmt::StmtSeq` loop: compile each child in order. -/
def compile_seq : List Stmt → Option (List Code)
  | [] => some []
  | s :: ss =>
    (compile_stmt s).bind fun c =>
    (compile_seq ss).map (fun cs => c ++ cs)

end

/-- Models `Compiler::compile`. -/
def compile (s : Stmt) : Option (List Code) := compile_stmt s

/-!
IEEE-754 binary64 values, as stored by the source's
`parse::<f64>().unwrap()` in `lex_number`'s float branch.  The argument
of that parse is always a nonnegative decimal literal `digits '.' digits`
(second digit run possibly empty), on which Rust's `f64` parse is total
and returns the correctly rounded (round to nearest, ties to even)
binary64 value of the literal, `+inf` on overflow.  The functions below
implement exactly that semantics for positive rationals `num / den`.
-/

/-- A nonnegative binary64 value: a finite `m * 2 ^ e` (representation not
required to be canonical) or `+inf`.  The literals `lex_number` parses are
nonnegative, so no sign is needed. -/
inductive F64 where
  | finite : Nat → Int → F64
  | inf : F64
deriving DecidableEq, Repr

/-- Tests `num / den < 2 ^ k` for an integer `k` of either sign. -/
def ltPow2 (num den : Nat) (k : Int) : Bool :=
  if 0 ≤ k then decide (num < den * 2 ^ k.toNat)
  else decide (num * 2 ^ (-k).toNat < den)

/-- The smallest `e' ≥ e` with `num / den < 2 ^ 53 * 2 ^ e'`, found by
upward search (fuel-bounded; the fuel below always suffices for values
that are finite in binary64, and exhausting it lands above the overflow
exponent, which `f64_round_pos` maps to `inf`). -/
def findExp : Nat → Int → Nat → Nat → Int
  | 0, e, _, _ => e
  | fuel + 1, e, num, den =>
    if ltPow2 num den (e + 53) then e else findExp fuel (e + 1) num den

/-- The rounding exponent of `num / den > 0`: the smallest `e ≥ -1074`
(the subnormal exponent) such that `num / den < 2 ^ 53 * 2 ^ e`. -/
def f64exp (num den : Nat) : Int := findExp 2200 (-1074) num den

/-- Rounds `a / b` to the nearest natural, ties to even. -/
def rhe (a b : Nat) : Nat :=
  let q := a / b
  let r := a % b
  if 2 * r < b then q
  else if b < 2 * r then q + 1
  else if q % 2 = 0 then q else q + 1

/-- Correctly rounded binary64 value of `num / den > 0`: round onto the
grid `2 ^ e` with ties to even; a carry to `2 ^ 53` moves to the next
binade, and an exponent beyond 971 (the largest binade) overflows to
`inf`. -/
def f64_round_pos (num den : Nat) : F64 :=
  let e := f64exp num den
  let m := if 0 ≤ e then rhe num (den * 2 ^ e.toNat) else rhe (num * 2 ^ (-e).toNat) den
  let m2 := if m = 2 ^ 53 then 2 ^ 52 else m
  let e2 := if m = 2 ^ 53 then e + 1 else e
  if 971 < e2 then F64.inf else F64.finite m2 e2

/-- The `f64` value the source stores for a float-literal slice
`digits '.' digits`: the correctly rounded binary64 of
`natOfDigits (all digits) / 10 ^ (number of fraction digits)`.  This is
the number carried by the Rust `Token::Float` whose Lean counterpart
`Token.Float` carries the slice itself. -/
def f64_of_lit (s : List Char) : F64 :=
  let ip := s.takeWhile (fun c => !(c == '.'))
  let fp := (s.dropWhile (fun c => !(c == '.'))).drop 1
  let num := natOfDigits (ip ++ fp)
  let den := 10 ^ fp.length
  if num = 0 then F64.finite 0 0 else f64_round_pos num den

/-- Decides whether a binary64 value equals the rational `num / den`
exactly. -/
def F64.eqRat : F64 → Nat → Nat → Bool
  | F64.inf, _, _ => false
  | F64.finite m e, num, den =>
    if 0 ≤ e then decide (m * 2 ^ e.toNat * den = num)
    else decide (m * den = num * 2 ^ (-e).toNat)

/-! Infrastructure for stating stream-level properties of the parser. -/

/-- The relation `emits sfuel F ts = some F'` states that from lexer-with-lookahead `F`
the lookahead protocol yields exactly the tokens `ts` (each read from the
lookahead, then refilled by `step_token`) and ends in state `F'`. -/
def emits (sfuel : Nat) : PLexer → List Token → Option PLexer
  | F, [] => some F
  | F, t :: ts =>
    if F.lookahead = some t then
      match step_token sfuel F with
      | StepRes.ok F1 => emits sfuel F1 ts
      | _ => none
    else none

/-- The `+`/`-` chain operator as a token (`true` is `+`). -/
def addSubTok (b : Bool) : Token := if b then Token.Plus else Token.Sub

/-- Instruction the compiler emits for the `+`/`-` chain operator. -/
def addSubCode (b : Bool) : Code := if b then Code.Add else Code.Fox

/-- The `*`/`/` chain operator as a token (`true` is `*`). -/
def mulDivTok (b : Bool) : Token := if b then Token.Mul else Token.Div

/-- Instruction the compiler emits for the `*`/`/` chain operator. -/
def mulDivCode (b : Bool) : Code := if b then Code.Rooster else Code.Div

/-- The left-associated expression tree `((n0 op1 n1) op2 n2) ...`. -/
def chainFold (t : Bool → Token) (n0 : Int) (ops : List (Bool × Int)) : Expr :=
  ops.foldl (fun acc bn => Expr.BinOp (t bn.1) acc (Expr.Int bn.2)) (Expr.Int n0)

/-- The token stream of a chain tail: `op1 n1 op2 n2 ...`. -/
def chainToks (t : Bool → Token) : List (Bool × Int) → List Token
  | [] => []
  | bn :: tl => t bn.1 :: Token.Int bn.2 :: chainToks t tl

/-- The instruction stream of a chain tail in left-to-right accumulation
order: `push n1, op1, push n2, op2, ...`. -/
def chainCode (c : Bool → Code) : List (Bool × Int) → List Code
  | [] => []
  | bn :: tl => Code.Push bn.2 :: c bn.1 :: chainCode c tl

/-- Returns `true` iff the lookahead is one of the four binary operator tokens. -/
def isArithTok : Option Token → Bool
  | some Token.Plus => true
  | some Token.Sub => true
  | some Token.Mul => true
  | some Token.Div => true
  | _ => false

/-- Returns `true` iff the lookahead is `*` or `/`. -/
def isMulDivTok : Option Token → Bool
  | some Token.Mul => true
  | some Token.Div => true
  | _ => false

/-- The lexer states (with lookahead) reachable on `input` through the
public protocol: construction (`Lexer::new`) followed by any succeeding
sequence of `step_token` and `match_token` operations. -/
inductive Reached (sfuel : Nat) (input : List Char) : PLexer → Prop where
  | init : ∀ F, mkLexer sfuel input = StepRes.ok F → Reached sfuel input F
  | step : ∀ F F', Reached sfuel input F → step_token sfuel F = StepRes.ok F' →
      Reached sfuel input F'
  | mtch : ∀ t F F', Reached sfuel input F →
      match_token sfuel t F = StepRes.ok F' → Reached sfuel input F'

/-- The `lex_token` outcome that a lookahead/cursor pair encodes. -/
def lookRes (F : PLexer) : TokRes :=
  match F.lookahead with
  | some t => TokRes.tok t F.st
  | none => TokRes.eof F.st

/-! Concrete source texts used by the claims. -/

def srcC1 : List Char := "push 1 + 2 * 3;".toList

def srcAxe : List Char := "axe".toList

def srcCompare : List Char := "compare;".toList

def srcAt : List Char := "@".toList

def srcUnterm : List Char := "\"abc".toList

def srcUntermBs : List Char := "\"ab\\".toList

def srcOverflow : List Char := "9223372036854775808".toList

def srcSmall : List Char := "12345".toList

def srcPointOne : List Char := "0.1".toList

def srcPointFive : List Char := "0.5".toList

def srcUnaryPlus : List Char := "push +5;".toList

def srcTwoWords : List Char := "axe chicken".toList

def srcChain : List Char := "1 - 2 + 3;".toList

/-! Helper lemmas. -/

/-- Running `consume_while` on a suffix `xs ++ ys` where every character
of `xs` satisfies the predicate and the first character of `ys` (if any)
does not consumes exactly `xs`. -/
theorem consume_while_aux_prefix (p : Char → Bool) (xs : List Char) :
    ∀ (ys input : List Char) (pos line col : Nat),
      (∀ c ∈ xs, p c = true) →
      (∀ y, ys.head? = some y → p y = false) →
      ∃ line2 col2, consume_while_aux p (xs ++ ys) input pos line col =
        ⟨input, ys, pos + xs.length, line2, col2⟩ := by
  induction xs with
  | nil =>
    intro ys input pos line col _ hstop
    cases ys with
    | nil => exact ⟨line, col, by simp [consume_while_aux]⟩
    | cons y ys2 =>
      have hy : p y = false := hstop y rfl
      exact ⟨line, col, by simp [consume_while_aux, hy]⟩
  | cons x xs2 ih =>
    intro ys input pos line col h hstop
    have hx : p x = true := h x (List.mem_cons_self x xs2)
    have htl : ∀ c ∈ xs2, p c = true := fun c hc => h c (List.mem_cons_of_mem x hc)
    have hlen : pos + 1 + xs2.length = pos + (x :: xs2).length := by
      simp [List.length_cons]
      omega
    simp only [List.cons_append, consume_while_aux, hx, if_true]
    cases hh : (xs2 ++ ys).head? with
    | none =>
      obtain ⟨l2, c2, hres⟩ := ih ys input (pos + 1) line (col + 1) htl hstop
      rw [hlen] at hres
      exact ⟨l2, c2, by simpa using hres⟩
    | some c2 =>
      by_cases h2 : c2 = '\n'
      · simp only [if_pos h2]
        obtain ⟨l2, c3, hres⟩ := ih ys input (pos + 1) (line + 1) 0 htl hstop
        rw [hlen] at hres
        exact ⟨l2, c3, by simpa using hres⟩
      · simp only [if_neg h2]
        obtain ⟨l2, c3, hres⟩ := ih ys input (pos + 1) line (col + 1) htl hstop
        rw [hlen] at hres
        exact ⟨l2, c3, by simpa using hres⟩

/-- In every branch, `step_chr` drops the current character and advances
`pos` by one (only `line`/`col` depend on the next character). -/
theorem step_chr_parts (l : Lexer) :
    ∃ line2 col2, step_chr l = ⟨l.input, l.rest.tail, l.pos + 1, line2, col2⟩ := by
  unfold step_chr
  cases h : l.rest.tail.head? with
  | none => exact ⟨l.line, l.col + 1, by simp [h]⟩
  | some c =>
    by_cases hc : c = '\n'
    · exact ⟨l.line + 1, 0, by simp [h, hc]⟩
    · exact ⟨l.line, l.col + 1, by simp [h, hc]⟩

/-- Running `consume_while` on a suffix all of whose characters satisfy the
predicate consumes the whole suffix, advancing `pos` by its length. -/
theorem consume_while_aux_all (p : Char → Bool) (rest : List Char) :
    ∀ (input : List Char) (pos line col : Nat),
      (∀ c ∈ rest, p c = true) →
      ∃ line2 col2, consume_while_aux p rest input pos line col =
        ⟨input, [], pos + rest.length, line2, col2⟩ := by
  induction rest with
  | nil =>
    intro input pos line col _
    exact ⟨line, col, by simp [consume_while_aux]⟩
  | cons c cs ih =>
    intro input pos line col h
    have hc : p c = true := h c (List.mem_cons_self c cs)
    have htl : ∀ x ∈ cs, p x = true := fun x hx => h x (List.mem_cons_of_mem c hx)
    have hlen : pos + 1 + cs.length = pos + (c :: cs).length := by
      simp [List.length_cons]
      omega
    simp only [consume_while_aux, hc, if_true]
    cases hh : cs.head? with
    | none =>
      obtain ⟨l2, c2, hres⟩ := ih input (pos + 1) line (col + 1) htl
      exact ⟨l2, c2, by rw [hres, hlen]⟩
    | some c2 =>
      by_cases h2 : c2 = '\n'
      · simp only [if_pos h2]
        obtain ⟨l2, c3, hres⟩ := ih input (pos + 1) (line + 1) 0 htl
        exact ⟨l2, c3, by rw [hres, hlen]⟩
      · simp only [if_neg h2]
        obtain ⟨l2, c3, hres⟩ := ih input (pos + 1) line (col + 1) htl
        exact ⟨l2, c3, by rw [hres, hlen]⟩

/-- With the input exhausted and no pending backslash, the body of the
string-lexing loop changes nothing, so the loop never terminates: every
amount of fuel is exhausted. -/
theorem lex_string_loop_stuck (input : List Char) (pos line col : Nat) :
    ∀ (fuel : Nat) (acc : List Char),
      lex_string_loop fuel acc ⟨input, [], pos, line, col⟩ = StrRes.hang := by
  intro fuel
  induction fuel with
  | zero => intro acc; rfl
  | succ k ih =>
    intro acc
    have h1 : lex_string_loop (k + 1) acc ⟨input, [], pos, line, col⟩ =
        lex_string_loop k (acc ++ slice input pos pos) ⟨input, [], pos, line, col⟩ :=
      rfl
    have h2 : acc ++ slice input pos pos = acc := by simp [slice]
    rw [h1, h2]
    exact ih acc

/-- Reading off a `some` result of `emits` on a nonempty token list. -/
theorem emits_cons {sfuel : Nat} {F F' : PLexer} {t : Token} {ts : List Token}
    (h : emits sfuel F (t :: ts) = some F') :
    F.lookahead = some t ∧
      ∃ F1, step_token sfuel F = StepRes.ok F1 ∧ emits sfuel F1 ts = some F' := by
  by_cases hl : F.lookahead = some t
  · refine ⟨hl, ?_⟩
    cases hs : step_token sfuel F with
    | ok F1 =>
      refine ⟨F1, rfl, ?_⟩
      simpa [emits, hl, hs] using h
    | fatal d => simp [emits, hl, hs] at h
    | panic => simp [emits, hl, hs] at h
    | hang => simp [emits, hl, hs] at h
  · simp [emits, hl] at h

/-- Reading off a `some` result of `emits` on the empty token list. -/
theorem emits_nil {sfuel : Nat} {F F' : PLexer}
    (h : emits sfuel F [] = some F') : F' = F := by
  simpa [emits] using h.symm

/-- A lookahead that is none of the four operators is in particular not
`*` or `/`. -/
theorem isMulDiv_of_not_arith {o : Option Token}
    (h : isArithTok o = false) : isMulDivTok o = false := by
  cases o with
  | none => rfl
  | some t => cases t <;> simp_all [isArithTok, isMulDivTok]

/-- Running `parse_factor` on an integer-literal lookahead. -/
theorem parse_factor_int {sfuel : Nat} (g : Nat) {F F1 : PLexer} {n : Int}
    (hla : F.lookahead = some (Token.Int n))
    (hstep : step_token sfuel F = StepRes.ok F1) :
    parse_factor sfuel (g + 1) F = PRes.ok (Expr.Int n) F1 := by
  simp only [parse_factor, hla, stepThen, hstep]

/-- The function `parse_term_tail` immediately returns when the lookahead is not `*`
or `/`. -/
theorem parse_term_tail_stop {sfuel : Nat} (g : Nat) {F : PLexer} (left : Expr)
    (h : isMulDivTok F.lookahead = false) :
    parse_term_tail sfuel (g + 1) left F = PRes.ok left F := by
  simp only [parse_term_tail]
  cases hl : F.lookahead with
  | none => rfl
  | some t => cases t <;> simp_all [isMulDivTok]

/-- The function `parse_expr_tail` immediately returns when the lookahead is not an
operator token. -/
theorem parse_expr_tail_stop {sfuel : Nat} (g : Nat) {F : PLexer} (left : Expr)
    (h : isArithTok F.lookahead = false) :
    parse_expr_tail sfuel (g + 1) left F = PRes.ok left F := by
  simp only [parse_expr_tail]
  cases hl : F.lookahead with
  | none => rfl
  | some t => cases t <;> simp_all [isArithTok]

/-- Running `parse_term` on a single integer literal followed by a non-`*`/`/`
lookahead. -/
theorem parse_term_int {sfuel : Nat} (g : Nat) {F F1 : PLexer} {n : Int}
    (hla : F.lookahead = some (Token.Int n))
    (hstep : step_token sfuel F = StepRes.ok F1)
    (hnext : isMulDivTok F1.lookahead = false) :
    parse_term sfuel (g + 1 + 1) F = PRes.ok (Expr.Int n) F1 := by
  simp only [parse_term, parse_factor_int g hla hstep]
  exact parse_term_tail_stop g (Expr.Int n) hnext

/-! Claim theorems. -/

/-- C1: lexing `push 1 + 2 * 3;` yields the tokens
`[push, int 1, plus, int 2, mul, int 3, semi]`, parsing yields a single
push statement wrapping `BinOp(+, 1, BinOp(*, 2, 3))`, and compiling that
tree yields `[push 1, push 2, push 3, multiply, add]` (the multiply and
add instructions being `Code.Rooster` and `Code.Add`). -/
theorem c1_end_to_end :
    tokenList 1 20 (initLexer srcC1) =
      some [Token.Push, Token.Int 1, Token.Plus, Token.Int 2, Token.Mul,
        Token.Int 3, Token.Semi] ∧
    parseSource 1 30 srcC1 =
      PRes.ok (Stmt.StmtSeq [Stmt.Push (Expr.BinOp Token.Plus (Expr.Int 1)
        (Expr.BinOp Token.Mul (Expr.Int 2) (Expr.Int 3)))])
        ⟨⟨srcC1, [], 15, 1, 15⟩, none⟩ ∧
    compile (Stmt.StmtSeq [Stmt.Push (Expr.BinOp Token.Plus (Expr.Int 1)
        (Expr.BinOp Token.Mul (Expr.Int 2) (Expr.Int 3)))]) =
      some [Code.Push 1, Code.Push 2, Code.Push 3, Code.Rooster, Code.Add] :=
  ⟨by rfl, by rfl, by simp [compile, compile_stmt, compile_seq, compile_expr]⟩

/-- C3 counterexample: `compare` parses to `Stmt.Cmp`, but compiling it
reaches the `todo!()` wildcard arm (modelled by `none`) instead of
appending an instruction — the claim that only assignment statements reach
the unimplemented path is false. -/
theorem c3_compare_counterexample :
    parseSource 1 10 srcCompare =
      PRes.ok (Stmt.StmtSeq [Stmt.Cmp]) ⟨⟨srcCompare, [], 8, 1, 8⟩, none⟩ ∧
    compile (Stmt.StmtSeq [Stmt.Cmp]) = none :=
  ⟨by rfl, by rfl⟩

/-- C3 amended: each of the nine zero-argument keyword statements *other
than `compare`* compiles to exactly one operand-less instruction, the same
one at every occurrence; `compare` (and assignment) instead reaches the
`todo!()` path. -/
theorem c3_keywords_amended :
    compile_stmt Stmt.Axe = some [Code.Axe] ∧
    compile_stmt Stmt.Chicken = some [Code.Chicken] ∧
    compile_stmt Stmt.Add = some [Code.Add] ∧
    compile_stmt Stmt.Fox = some [Code.Fox] ∧
    compile_stmt Stmt.Rooster = some [Code.Rooster] ∧
    compile_stmt Stmt.Pick = some [Code.Pick] ∧
    compile_stmt Stmt.Peck = some [Code.Peck] ∧
    compile_stmt Stmt.Fr = some [Code.Fr] ∧
    compile_stmt Stmt.Bbq = some [Code.Bbq] ∧
    compile_stmt Stmt.Cmp = none :=
  ⟨rfl, rfl, rfl, rfl, rfl, rfl, rfl, rfl, rfl, rfl⟩

/-- C8: the error at the invalid character `@` as the very first input
character is reachable with column 0, and there the renderer's
`col - 2` computation underflows (`point_error_render` is `none`), so the
diagnostic rendering is *not* total at every reachable error column. -/
theorem c8_caret_underflow :
    lex_token 1 (initLexer srcAt) =
      TokRes.fatal ⟨ErrKind.invalidChar '@', initLexer srcAt⟩ ∧
    (initLexer srcAt).col = 0 ∧
    point_error_render (initLexer srcAt) = none :=
  ⟨by rfl, by rfl, by rfl⟩

/-- C4: on the input `"abc` (string opened, input ends, no pending
backslash) the string-lexing loop makes no progress and the lexer
diverges for every amount of fuel — the unterminated-string diagnostic is
*not* raised in this case.  It is raised only when the input ends right
after a backslash, as on `"ab\`. -/
theorem c4_unterminated_divergence :
    (∀ sfuel : Nat, lex_token sfuel (initLexer srcUnterm) = TokRes.hang) ∧
    lex_token 3 (initLexer srcUntermBs) =
      TokRes.fatal ⟨ErrKind.unterminatedString, ⟨srcUntermBs, [], 4, 1, 4⟩⟩ := by
  constructor
  · intro sfuel
    cases sfuel with
    | zero => rfl
    | succ k =>
      have h1 : lex_token (k + 1) (initLexer srcUnterm) =
          (match lex_string_loop k "abc".toList ⟨srcUnterm, [], 4, 1, 4⟩ with
           | StrRes.ok s l1 => TokRes.tok (Token.String s) l1
           | StrRes.fatal d => TokRes.fatal d
           | StrRes.hang => TokRes.hang) := rfl
      rw [h1, lex_string_loop_stuck]
  · rfl

set_option maxRecDepth 100000 in
/-- C7 counterexample: both exactness conjuncts of the claim fail on the
code.  `9223372036854775808` (2^63) is a nonempty string of decimal
digits, yet lexing it does not produce an integer token — the `i64`
parse's `unwrap()` panics — refuting "lexing never fails on any digit
string"; and the single-dot literal `0.1` lexes to a float token whose
stored `f64` value (the correctly rounded binary64 modelled by
`f64_of_lit`) is not equal to the exact decimal value 1/10, refuting the
float-exactness conjunct. -/
theorem c7_inexact_counterexample :
    ((∀ c ∈ srcOverflow, c.isDigit = true) ∧
      lex_token 1 (initLexer srcOverflow) = TokRes.panic) ∧
    (lex_number (initLexer srcPointOne) =
        some (Token.Float srcPointOne, ⟨srcPointOne, [], 3, 1, 3⟩) ∧
      F64.eqRat (f64_of_lit srcPointOne) 1 10 = false) :=
  ⟨⟨by decide, by rfl⟩, by rfl, by decide⟩

set_option maxRecDepth 100000 in
/-- C7 amended: for a nonempty all-digit input whose value is at most
`i64::MAX` (2^63 − 1), `lex_number` produces an integer token carrying the
exact mathematical value; for a larger all-digit input the `i64` parse
fails and lexing panics (`none`) — the value is never truncated or
wrapped, but lexing does fail.  For literals with exactly one `.`
(digits, `.`, digits), `lex_number` produces a float token for the full
literal, whose stored value is the binary64 nearest the literal's exact
decimal value — exact for some literals (`0.5`) but not for every such
literal (`0.1`). -/
theorem c7_exactness_amended (ds ip fp : List Char) (_hne : ds ≠ [])
    (hd : ∀ c ∈ ds, c.isDigit = true) (_hipne : ip ≠ [])
    (hip : ∀ c ∈ ip, c.isDigit = true) (hfp : ∀ c ∈ fp, c.isDigit = true) :
    (natOfDigits ds ≤ i64Max →
      ∃ l2, lex_number (initLexer ds) =
        some (Token.Int (Int.ofNat (natOfDigits ds)), l2)) ∧
    (i64Max < natOfDigits ds → lex_number (initLexer ds) = none) ∧
    (∃ l2, lex_number (initLexer (ip ++ '.' :: fp)) =
      some (Token.Float (ip ++ '.' :: fp), l2)) ∧
    F64.eqRat (f64_of_lit srcPointOne) 1 10 = false ∧
    F64.eqRat (f64_of_lit srcPointFive) 1 2 = true := by
  obtain ⟨lineA, colA, hcwA⟩ :=
    consume_while_aux_all (fun c => c.isDigit) ds ds 0 1 0 hd
  have hconsumeA : consume_while (fun c => c.isDigit) ⟨ds, ds, 0, 1, 0⟩ =
      ⟨ds, [], 0 + ds.length, lineA, colA⟩ := hcwA
  have hsliceA : slice ds 0 ds.length = ds := by simp [slice]
  refine ⟨?_, ?_, ?_, by decide, by decide⟩
  · intro hb
    refine ⟨⟨ds, [], 0 + ds.length, lineA, colA⟩, ?_⟩
    simp [lex_number, initLexer, hconsumeA, consume_char, parse_i64, hsliceA, hb]
  · intro hb
    simp only [lex_number, initLexer, hconsumeA, consume_char, parse_i64]
    simp [hsliceA, Nat.not_le.mpr hb]
  · obtain ⟨m2, c2, hcw1⟩ := consume_while_aux_prefix (fun c => c.isDigit) ip
      ('.' :: fp) (ip ++ '.' :: fp) 0 1 0 hip
      (by intro y hy; cases hy; decide)
    have hc1 : consume_while (fun c => c.isDigit)
        ⟨ip ++ '.' :: fp, ip ++ '.' :: fp, 0, 1, 0⟩ =
        ⟨ip ++ '.' :: fp, '.' :: fp, ip.length, m2, c2⟩ := by
      simpa using hcw1
    obtain ⟨m3, c3, hstep⟩ :=
      step_chr_parts ⟨ip ++ '.' :: fp, '.' :: fp, ip.length, m2, c2⟩
    simp only [List.tail_cons] at hstep
    obtain ⟨m4, c4, hcw2⟩ := consume_while_aux_all (fun c => c.isDigit) fp
      (ip ++ '.' :: fp) (ip.length + 1) m3 c3 hfp
    have hc2 : consume_while (fun c => c.isDigit)
        ⟨ip ++ '.' :: fp, fp, ip.length + 1, m3, c3⟩ =
        ⟨ip ++ '.' :: fp, [], ip.length + 1 + fp.length, m4, c4⟩ := hcw2
    have hslice2 : slice (ip ++ '.' :: fp) 0 (ip.length + 1 + fp.length) =
        ip ++ '.' :: fp := by
      have hlen : ip.length + 1 + fp.length = (ip ++ '.' :: fp).length := by
        simp [List.length_append, List.length_cons]
        omega
      rw [hlen]
      simp [slice]
    refine ⟨⟨ip ++ '.' :: fp, [], ip.length + 1 + fp.length, m4, c4⟩, ?_⟩
    simp [lex_number, initLexer, hc1, consume_char, hstep, hc2, hslice2]

/-- C7 witness: the amended theorem applied to the digit string `12345`
and the float literal `1.25`. -/
theorem c7_exactness_amended_witness :
    (∃ l2, lex_number (initLexer srcSmall) =
      some (Token.Int (Int.ofNat (natOfDigits srcSmall)), l2)) ∧
    (∃ l2, lex_number (initLexer (['1'] ++ '.' :: ['2', '5'])) =
      some (Token.Float (['1'] ++ '.' :: ['2', '5']), l2)) := by
  have h := c7_exactness_amended srcSmall ['1'] ['2', '5'] (by decide)
    (by decide) (by decide) (by decide) (by decide)
  exact ⟨h.1 (by decide), h.2.2.1⟩

/-- C5: the unary-minus half of the claim holds — compiling `-e` emits
`push 0`, then `e`'s code, then the subtract instruction, with no negate
instruction — but the unary-plus half is false: the parser stores
`Token.Plus` in the `UnOp` node while the compiler's identity arm matches
`Token.Add` (the `add` keyword token), so a parsed unary plus such as
`push +5;` falls into the source's `unreachable!()` panic instead of
compiling its operand. -/
theorem c5_unary_minus_rewrite :
    (∀ (e : Expr) (c : List Code), compile_expr e = some c →
      compile_expr (Expr.UnOp Token.Sub e) =
        some (Code.Push 0 :: (c ++ [Code.Fox]))) ∧
    parseSource 1 20 srcUnaryPlus =
      PRes.ok (Stmt.StmtSeq [Stmt.Push (Expr.UnOp Token.Plus (Expr.Int 5))])
        ⟨⟨srcUnaryPlus, [], 8, 1, 8⟩, none⟩ ∧
    compile (Stmt.StmtSeq [Stmt.Push (Expr.UnOp Token.Plus (Expr.Int 5))]) =
      none := by
  refine ⟨?_, by rfl, ?_⟩
  · intro e c h
    simp [compile_expr, h]
  · simp [compile, compile_stmt, compile_seq, compile_expr]

/-- C5 witness: the unary-minus equation applied to the literal 7. -/
theorem c5_unary_minus_rewrite_witness :
    compile_expr (Expr.UnOp Token.Sub (Expr.Int 7)) =
      some (Code.Push 0 :: ([Code.Push 7] ++ [Code.Fox])) :=
  c5_unary_minus_rewrite.1 (Expr.Int 7) [Code.Push 7] (by simp [compile_expr])

/-- C10: the instruction emitted for binary `-` is `Code.Fox`, the same
value the `fox` statement appends; `*` emits `Code.Rooster` (= `rooster`),
`+` emits `Code.Add` (= `add`); only `/` emits `Code.Div`, which no
keyword statement appends; consequently `push 1; push 2; fox;` and
`push 1 - 2;`-style programs compile to identical instruction lists. -/
theorem c10_instruction_sharing :
    (∀ (l r : Expr) (cl cr : List Code), compile_expr l = some cl →
        compile_expr r = some cr →
      compile_expr (Expr.BinOp Token.Sub l r) = some (cl ++ cr ++ [Code.Fox]) ∧
      compile_expr (Expr.BinOp Token.Mul l r) = some (cl ++ cr ++ [Code.Rooster]) ∧
      compile_expr (Expr.BinOp Token.Plus l r) = some (cl ++ cr ++ [Code.Add]) ∧
      compile_expr (Expr.BinOp Token.Div l r) = some (cl ++ cr ++ [Code.Div])) ∧
    compile_stmt Stmt.Fox = some [Code.Fox] ∧
    compile_stmt Stmt.Rooster = some [Code.Rooster] ∧
    compile_stmt Stmt.Add = some [Code.Add] ∧
    (∀ s ∈ [Stmt.Axe, Stmt.Chicken, Stmt.Add, Stmt.Fox, Stmt.Rooster,
        Stmt.Pick, Stmt.Peck, Stmt.Fr, Stmt.Bbq],
      compile_stmt s ≠ some [Code.Div]) ∧
    compile (Stmt.StmtSeq [Stmt.Push (Expr.Int 1), Stmt.Push (Expr.Int 2),
        Stmt.Fox]) =
      compile (Stmt.StmtSeq [Stmt.Push (Expr.BinOp Token.Sub (Expr.Int 1)
        (Expr.Int 2))]) := by
  refine ⟨?_, rfl, rfl, rfl, ?_, ?_⟩
  · intro l r cl cr hl hr
    refine ⟨?_, ?_, ?_, ?_⟩ <;> simp [compile_expr, hl, hr]
  · intro s hs
    fin_cases hs <;> decide
  · simp [compile, compile_stmt, compile_seq, compile_expr]

/-- C10 witness: the binary-operator equations applied to the literals
3 and 4, together with the keyword-sharing equalities. -/
theorem c10_instruction_sharing_witness :
    compile_expr (Expr.BinOp Token.Sub (Expr.Int 3) (Expr.Int 4)) =
      some ([Code.Push 3] ++ [Code.Push 4] ++ [Code.Fox]) ∧
    compile_stmt Stmt.Fox ≠ some [Code.Div] := by
  constructor
  · exact (c10_instruction_sharing.1 (Expr.Int 3) (Expr.Int 4) [Code.Push 3]
      [Code.Push 4] (by simp [compile_expr]) (by simp [compile_expr])).1
  · exact c10_instruction_sharing.2.2.2.2.1 Stmt.Fox (by simp)

/-- C2 counterexample: the one-statement program `axe` with no trailing
semicolon does not parse successfully — `parse_stmt_seq` unconditionally
requires a `;` after the statement and raises the fatal
"Expected Semi" diagnostic at end of input. -/
theorem c2_no_semi_counterexample :
    parseSource 1 10 srcAxe =
      PRes.fatal ⟨ErrKind.expected Token.Semi none, ⟨srcAxe, [], 3, 1, 3⟩⟩ := by
  rfl

/-- C2 amended: a `;` after every statement is *required*, not optional:
whenever a statement parses successfully and the following lookahead is
not `;`, the statement-sequence loop raises the fatal "Expected Semi"
diagnostic (it does consume the `;` when present). -/
theorem c2_semicolon_required (sfuel fuel : Nat) (acc : List Stmt)
    (F F1 : PLexer) (s : Stmt)
    (hstmt : parse_stmt sfuel fuel F = PRes.ok (some s) F1)
    (hsemi : F1.lookahead ≠ some Token.Semi) :
    parse_stmt_seq sfuel (fuel + 1) acc F =
      PRes.fatal ⟨ErrKind.expected Token.Semi F1.lookahead, F1.st⟩ := by
  simp only [parse_stmt_seq, hstmt, match_token, if_neg hsemi]

/-- C2 witness: the amended theorem applied to the parser state reached
on the program `axe` after lexing `axe`. -/
theorem c2_semicolon_required_witness :
    parse_stmt 1 1 ⟨⟨srcAxe, [], 3, 1, 3⟩, some Token.Axe⟩ =
      PRes.ok (some Stmt.Axe) ⟨⟨srcAxe, [], 3, 1, 3⟩, none⟩ ∧
    parse_stmt_seq 1 2 [] ⟨⟨srcAxe, [], 3, 1, 3⟩, some Token.Axe⟩ =
      PRes.fatal ⟨ErrKind.expected Token.Semi none, ⟨srcAxe, [], 3, 1, 3⟩⟩ := by
  refine ⟨by rfl, ?_⟩
  exact c2_semicolon_required 1 1 [] ⟨⟨srcAxe, [], 3, 1, 3⟩, some Token.Axe⟩
    ⟨⟨srcAxe, [], 3, 1, 3⟩, none⟩ Stmt.Axe (by rfl) (by decide)

/-- C9 counterexample: on `axe chicken`, directly after construction the
stored lookahead is `axe` but lexing from the *current* cursor position
produces `chicken` — the stored lookahead is the token the cursor has
already moved past, not the one obtainable from the current position. -/
theorem c9_lookahead_counterexample :
    mkLexer 1 srcTwoWords =
      StepRes.ok ⟨⟨srcTwoWords, " chicken".toList, 3, 1, 3⟩, some Token.Axe⟩ ∧
    lex_token 1 ⟨srcTwoWords, " chicken".toList, 3, 1, 3⟩ =
      TokRes.tok Token.Chicken ⟨srcTwoWords, [], 11, 1, 11⟩ ∧
    Token.Chicken ≠ Token.Axe :=
  ⟨by rfl, by rfl, by decide⟩

/-- C9 amended: in every state reachable through the lexer's protocol
(construction, `step_token`, `match_token`) the lookahead/cursor pair is
exactly the result of one eager `lex_token` call from some earlier cursor
position: the stored lookahead is the token lexed *ending at* the current
cursor, and it is populated eagerly at construction and at each advance,
never on peek (peeking is a plain field read). -/
theorem c9_lookahead_invariant (sfuel : Nat) (input : List Char) (F : PLexer)
    (h : Reached sfuel input F) :
    ∃ st0 : Lexer, lex_token sfuel st0 = lookRes F := by
  induction h with
  | init F hF =>
    refine ⟨initLexer input, ?_⟩
    unfold mkLexer step_token at hF
    cases hc : lex_token sfuel (initLexer input) with
    | tok t l => rw [hc] at hF; cases hF; rfl
    | eof l => rw [hc] at hF; cases hF; rfl
    | fatal d => rw [hc] at hF; cases hF
    | panic => rw [hc] at hF; cases hF
    | hang => rw [hc] at hF; cases hF
  | step F F' _ hstep _ =>
    refine ⟨F.st, ?_⟩
    unfold step_token at hstep
    cases hc : lex_token sfuel F.st with
    | tok t l => rw [hc] at hstep; cases hstep; rfl
    | eof l => rw [hc] at hstep; cases hstep; rfl
    | fatal d => rw [hc] at hstep; cases hstep
    | panic => rw [hc] at hstep; cases hstep
    | hang => rw [hc] at hstep; cases hstep
  | mtch t F F' _ hm _ =>
    refine ⟨F.st, ?_⟩
    unfold match_token at hm
    by_cases hl : F.lookahead = some t
    · rw [if_pos hl] at hm
      unfold step_token at hm
      cases hc : lex_token sfuel F.st with
      | tok t2 l => rw [hc] at hm; cases hm; rfl
      | eof l => rw [hc] at hm; cases hm; rfl
      | fatal d => rw [hc] at hm; cases hm
      | panic => rw [hc] at hm; cases hm
      | hang => rw [hc] at hm; cases hm
    · rw [if_neg hl] at hm; cases hm

/-- C9 witness: the invariant applied to the state reached by constructing
the lexer on `axe chicken`. -/
theorem c9_lookahead_invariant_witness :
    ∃ st0 : Lexer, lex_token 1 st0 =
      lookRes ⟨⟨srcTwoWords, " chicken".toList, 3, 1, 3⟩, some Token.Axe⟩ :=
  c9_lookahead_invariant 1 srcTwoWords
    ⟨⟨srcTwoWords, " chicken".toList, 3, 1, 3⟩, some Token.Axe⟩
    (Reached.init _ (by rfl))

/-- Running `parse_expr_tail` on a `+`/`-` chain accumulates left-to-right into a
left-associated tree. -/
theorem parse_expr_tail_chain {sfuel : Nat} (ops : List (Bool × Int)) :
    ∀ (g : Nat) (left : Expr) (F F' : PLexer),
      2 * ops.length + 1 ≤ g →
      emits sfuel F (chainToks addSubTok ops) = some F' →
      isArithTok F'.lookahead = false →
      parse_expr_tail sfuel g left F =
        PRes.ok (ops.foldl (fun acc bn =>
          Expr.BinOp (addSubTok bn.1) acc (Expr.Int bn.2)) left) F' := by
  induction ops with
  | nil =>
    intro g left F F' hg he hstop
    have hF : F' = F := emits_nil (by simpa [chainToks] using he)
    subst hF
    obtain ⟨g1, rfl⟩ : ∃ g1, g = g1 + 1 := ⟨g - 1, by omega⟩
    simpa using parse_expr_tail_stop g1 left hstop
  | cons bn tl ih =>
    intro g left F F' hg he hstop
    obtain ⟨b, n⟩ := bn
    simp only [List.length_cons] at hg
    rw [chainToks] at he
    obtain ⟨hla, Fa, hstepa, he2⟩ := emits_cons he
    obtain ⟨hlaInt, Fb, hstepb, he3⟩ := emits_cons he2
    have hnext : isMulDivTok Fb.lookahead = false := by
      cases tl with
      | nil =>
        have h0 : emits sfuel Fb ([] : List Token) = some F' := by
          simpa [chainToks] using he3
        rw [emits_nil h0] at hstop
        exact isMulDiv_of_not_arith hstop
      | cons bn2 tl2 =>
        rw [chainToks] at he3
        rw [(emits_cons he3).1]
        cases hb2 : bn2.1 <;> simp [addSubTok, isMulDivTok]
    obtain ⟨g1, rfl⟩ : ∃ g1, g = g1 + 1 + 1 + 1 := ⟨g - 3, by omega⟩
    have hterm : parse_term sfuel (g1 + 1 + 1) Fa = PRes.ok (Expr.Int n) Fb :=
      parse_term_int g1 hlaInt hstepb hnext
    have hrec := ih (g1 + 1 + 1) (Expr.BinOp (addSubTok b) left (Expr.Int n))
      Fb F' (by omega) he3 hstop
    cases b with
    | true =>
      have hla2 : F.lookahead = some Token.Plus := by simpa [addSubTok] using hla
      have hmt : match_token sfuel Token.Plus F = StepRes.ok Fa := by
        simp [match_token, hla2, hstepa]
      simp only [parse_expr_tail, hla2, hmt, hterm]
      simpa [addSubTok] using hrec
    | false =>
      have hla2 : F.lookahead = some Token.Sub := by simpa [addSubTok] using hla
      have hmt : match_token sfuel Token.Sub F = StepRes.ok Fa := by
        simp [match_token, hla2, hstepa]
      simp only [parse_expr_tail, hla2, hmt, hterm]
      simpa [addSubTok] using hrec

/-- Running `parse_term_tail` on a `*`/`/` chain accumulates left-to-right into a
left-associated tree. -/
theorem parse_term_tail_chain {sfuel : Nat} (ops : List (Bool × Int)) :
    ∀ (g : Nat) (left : Expr) (F F' : PLexer),
      2 * ops.length + 1 ≤ g →
      emits sfuel F (chainToks mulDivTok ops) = some F' →
      isArithTok F'.lookahead = false →
      parse_term_tail sfuel g left F =
        PRes.ok (ops.foldl (fun acc bn =>
          Expr.BinOp (mulDivTok bn.1) acc (Expr.Int bn.2)) left) F' := by
  induction ops with
  | nil =>
    intro g left F F' hg he hstop
    have hF : F' = F := emits_nil (by simpa [chainToks] using he)
    subst hF
    obtain ⟨g1, rfl⟩ : ∃ g1, g = g1 + 1 := ⟨g - 1, by omega⟩
    simpa using parse_term_tail_stop g1 left (isMulDiv_of_not_arith hstop)
  | cons bn tl ih =>
    intro g left F F' hg he hstop
    obtain ⟨b, n⟩ := bn
    simp only [List.length_cons] at hg
    rw [chainToks] at he
    obtain ⟨hla, Fa, hstepa, he2⟩ := emits_cons he
    obtain ⟨hlaInt, Fb, hstepb, he3⟩ := emits_cons he2
    obtain ⟨g1, rfl⟩ : ∃ g1, g = g1 + 1 + 1 := ⟨g - 2, by omega⟩
    have hfac : parse_factor sfuel (g1 + 1) Fa = PRes.ok (Expr.Int n) Fb :=
      parse_factor_int g1 hlaInt hstepb
    have hrec := ih (g1 + 1) (Expr.BinOp (mulDivTok b) left (Expr.Int n))
      Fb F' (by omega) he3 hstop
    cases b with
    | true =>
      have hla2 : F.lookahead = some Token.Mul := by simpa [mulDivTok] using hla
      have hmt : match_token sfuel Token.Mul F = StepRes.ok Fa := by
        simp [match_token, hla2, hstepa]
      simp only [parse_term_tail, hla2, hmt, hfac]
      simpa [mulDivTok] using hrec
    | false =>
      have hla2 : F.lookahead = some Token.Div := by simpa [mulDivTok] using hla
      have hmt : match_token sfuel Token.Div F = StepRes.ok Fa := by
        simp [match_token, hla2, hstepa]
      simp only [parse_term_tail, hla2, hmt, hfac]
      simpa [mulDivTok] using hrec

/-- Compiling a left-associated `+`/`-` chain appends, for each link,
the pushed literal followed by the link's instruction. -/
theorem compile_chainFold_addSub (ops : List (Bool × Int)) :
    ∀ (acc : Expr) (cacc : List Code), compile_expr acc = some cacc →
      compile_expr (ops.foldl (fun a bn =>
          Expr.BinOp (addSubTok bn.1) a (Expr.Int bn.2)) acc) =
        some (cacc ++ chainCode addSubCode ops) := by
  induction ops with
  | nil => intro acc cacc h; simpa [chainCode] using h
  | cons bn tl ih =>
    intro acc cacc h
    obtain ⟨b, n⟩ := bn
    have hstep : compile_expr (Expr.BinOp (addSubTok b) acc (Expr.Int n)) =
        some (cacc ++ [Code.Push n, addSubCode b]) := by
      cases b <;> simp [compile_expr, h, addSubTok, addSubCode]
    have := ih (Expr.BinOp (addSubTok b) acc (Expr.Int n)) _ hstep
    simpa [chainCode, List.append_assoc] using this

/-- Compiling a left-associated `*`/`/` chain appends, for each link,
the pushed literal followed by the link's instruction. -/
theorem compile_chainFold_mulDiv (ops : List (Bool × Int)) :
    ∀ (acc : Expr) (cacc : List Code), compile_expr acc = some cacc →
      compile_expr (ops.foldl (fun a bn =>
          Expr.BinOp (mulDivTok bn.1) a (Expr.Int bn.2)) acc) =
        some (cacc ++ chainCode mulDivCode ops) := by
  induction ops with
  | nil => intro acc cacc h; simpa [chainCode] using h
  | cons bn tl ih =>
    intro acc cacc h
    obtain ⟨b, n⟩ := bn
    have hstep : compile_expr (Expr.BinOp (mulDivTok b) acc (Expr.Int n)) =
        some (cacc ++ [Code.Push n, mulDivCode b]) := by
      cases b <;> simp [compile_expr, h, mulDivTok, mulDivCode]
    have := ih (Expr.BinOp (mulDivTok b) acc (Expr.Int n)) _ hstep
    simpa [chainCode, List.append_assoc] using this

/-- C6: for every chain of `+`/`-` at one precedence level starting with
an integer literal, `parse_expr` builds the left-associated tree
`chainFold` and compiling it yields the left-to-right accumulation order
`push n0, push n1, op1, push n2, op2, ...`; the same holds for `*`/`/`
chains through `parse_term`. -/
theorem c6_left_associative (sfuel : Nat) :
    (∀ (ops : List (Bool × Int)) (g : Nat) (n0 : Int) (F Fa F' : PLexer),
      2 * ops.length + 3 ≤ g →
      F.lookahead = some (Token.Int n0) →
      step_token sfuel F = StepRes.ok Fa →
      emits sfuel Fa (chainToks addSubTok ops) = some F' →
      isArithTok F'.lookahead = false →
      parse_expr sfuel g F = PRes.ok (chainFold addSubTok n0 ops) F' ∧
      compile_expr (chainFold addSubTok n0 ops) =
        some (Code.Push n0 :: chainCode addSubCode ops)) ∧
    (∀ (ops : List (Bool × Int)) (g : Nat) (n0 : Int) (F Fa F' : PLexer),
      2 * ops.length + 3 ≤ g →
      F.lookahead = some (Token.Int n0) →
      step_token sfuel F = StepRes.ok Fa →
      emits sfuel Fa (chainToks mulDivTok ops) = some F' →
      isArithTok F'.lookahead = false →
      parse_term sfuel g F = PRes.ok (chainFold mulDivTok n0 ops) F' ∧
      compile_expr (chainFold mulDivTok n0 ops) =
        some (Code.Push n0 :: chainCode mulDivCode ops)) := by
  constructor
  · intro ops g n0 F Fa F' hg hla0 hstep0 hemits hstop
    have hnextA : isMulDivTok Fa.lookahead = false := by
      cases ops with
      | nil =>
        have h0 : emits sfuel Fa ([] : List Token) = some F' := by
          simpa [chainToks] using hemits
        rw [emits_nil h0] at hstop
        exact isMulDiv_of_not_arith hstop
      | cons bn tl =>
        rw [chainToks] at hemits
        rw [(emits_cons hemits).1]
        cases hb : bn.1 <;> simp [addSubTok, isMulDivTok]
    obtain ⟨g1, rfl⟩ : ∃ g1, g = g1 + 1 + 1 + 1 := ⟨g - 3, by omega⟩
    have hterm : parse_term sfuel (g1 + 1 + 1) F = PRes.ok (Expr.Int n0) Fa :=
      parse_term_int g1 hla0 hstep0 hnextA
    constructor
    · have htail := parse_expr_tail_chain ops (g1 + 1 + 1)
        (Expr.Int n0) Fa F' (by omega) hemits hstop
      simp only [parse_expr, hterm, htail, chainFold]
    · have := compile_chainFold_addSub ops (Expr.Int n0) [Code.Push n0]
        (by simp [compile_expr])
      simpa [chainFold] using this
  · intro ops g n0 F Fa F' hg hla0 hstep0 hemits hstop
    obtain ⟨g1, rfl⟩ : ∃ g1, g = g1 + 1 + 1 := ⟨g - 2, by omega⟩
    have hfac : parse_factor sfuel (g1 + 1) F = PRes.ok (Expr.Int n0) Fa :=
      parse_factor_int g1 hla0 hstep0
    constructor
    · have htail := parse_term_tail_chain ops (g1 + 1)
        (Expr.Int n0) Fa F' (by omega) hemits hstop
      simp only [parse_term, hfac, htail, chainFold]
    · have := compile_chainFold_mulDiv ops (Expr.Int n0) [Code.Push n0]
        (by simp [compile_expr])
      simpa [chainFold] using this

/-- C6 witness: the `+`/`-` half applied to the concrete chain
`1 - 2 + 3` (followed by `;`), whose tree is `((1 - 2) + 3)` and whose
code is `push 1, push 2, subtract, push 3, add`. -/
theorem c6_left_associative_witness :
    parse_expr 1 10 ⟨⟨srcChain, " - 2 + 3;".toList, 1, 1, 1⟩,
        some (Token.Int 1)⟩ =
      PRes.ok (chainFold addSubTok 1 [(false, 2), (true, 3)])
        ⟨⟨srcChain, [], 10, 1, 10⟩, some Token.Semi⟩ ∧
    compile_expr (chainFold addSubTok 1 [(false, 2), (true, 3)]) =
      some (Code.Push 1 :: chainCode addSubCode [(false, 2), (true, 3)]) :=
  (c6_left_associative 1).1 [(false, 2), (true, 3)] 10 1
    ⟨⟨srcChain, " - 2 + 3;".toList, 1, 1, 1⟩, some (Token.Int 1)⟩
    ⟨⟨srcChain, " 2 + 3;".toList, 3, 1, 3⟩, some Token.Sub⟩
    ⟨⟨srcChain, [], 10, 1, 10⟩, some Token.Semi⟩
    (by decide) (by rfl) (by rfl) (by rfl) (by rfl)

end Egg
